import Mathlib

/-!
Verification of the unification/reification engine in
`unification/core.py` (AlexanderGrooff/unification).

The Python terms handled by the engine are shallowly embedded as the
inductive type `Term`.  Python scalars compared by native equality are
`int`/`str`; logic variables (`Var` objects, equal iff their identity
token is equal) are `var` with a `Nat` identity; `tuple`, `list`,
`set`/`frozenset` (collapsed: Python compares them extensionally across
the two kinds and `_unify` dispatches on the union `(set, frozenset)`),
`dict` (association list in insertion order, which is the order
`iteritems` iterates) and `Iterator` (a generator: it has elements but
no `len()`) complete the shapes.  The experimental bytecode/function
handlers (`_unify` on `Instruction`/`FunctionType`) are excluded: the
spec declares them out of scope and no claim touches them.

Every recursive function is indexed by an explicit fuel `Nat` and
returns `none` when the fuel runs out; a Python run that terminates is
modelled by the result being `some r` for every large enough fuel, and
a diverging Python run is modelled by the result being `none` for every
fuel.  All definitions are structural on the fuel, hence computable and
kernel-reducible.
-/

inductive Term where
  | int  : Int → Term
  | str  : String → Term
  | var  : Nat → Term
  | tup  : List Term → Term
  | lst  : List Term → Term
  | set  : List Term → Term
  | dict : List (Term × Term) → Term
  | iter : List Term → Term

/-- A substitution: a mapping from Variable identity tokens to terms,
represented as an association list.  `assoc` prepends, so `lookup`
sees the newest binding first, matching `toolz.assoc` building a new
dict with the key set. -/
abbrev Subst := List (Nat × Term)

def lookup : Subst → Nat → Option Term
  | [], _ => none
  | (k, v) :: s, x => if k = x then some v else lookup s x

/-- Modelled from the external library `toolz.assoc`: returns a new
mapping in which `x` is bound to `t`; the input mapping is unchanged.
`unify` only ever calls it with an unbound variable `x`. -/
def assoc (s : Subst) (x : Nat) (t : Term) : Subst := (x, t) :: s

/-- Modelled from the spec: `walk` (`transitive_get` in
`unification/utils.py`, not under `src/`), section 4.1: while the term
is a Variable bound in `s`, replace it with its bound value; stop at
the first unbound Variable or first non-Variable value; no cycle
detection, so a cyclic substitution diverges (modelled by `none`). -/
def walkAux : Nat → Term → Subst → Option Term
  | f, .var x, s =>
    match lookup s x with
    | some b =>
      match f with
      | 0 => none
      | f + 1 => walkAux f b s
    | none => some (.var x)
  | _, t, _ => some t

/-- A chain of bound variables that terminates visits pairwise distinct
keys of `s`, so `s.length` chase steps always suffice; `walk` returns
`none` exactly when the Python `while` loop would run forever. -/
def walk (t : Term) (s : Subst) : Option Term := walkAux s.length t s

/-!
Python native equality `==` on the embedded shapes.  Structural on
`int`/`str`; identity on variables (`Var.__eq__` compares the token)
and on iterators (two distinct generator objects are never `==`; the
model always answers `false` for iterators, which is faithful whenever
the two operands are distinct objects); pointwise on same-kind
sequences; extensional on sets (equal size and mutual membership) and
on dicts (equal size and every key of the left dict present in the
right with `==` value); `false` across different shapes (in
particular a list is never `==` a tuple).
-/

mutual
def pyEq : Nat → Term → Term → Option Bool
  | 0, _, _ => none
  | n + 1, t, u =>
    match t, u with
    | .int a, .int b => some (a == b)
    | .str a, .str b => some (a == b)
    | .var a, .var b => some (a == b)
    | .tup as, .tup bs => pyEqL n as bs
    | .lst as, .lst bs => pyEqL n as bs
    | .set as, .set bs =>
      if as.length = bs.length then
        match pyIncl n as bs with
        | none => none
        | some false => some false
        | some true => pyIncl n bs as
      else some false
    | .dict ps, .dict qs =>
      if ps.length = qs.length then pyDInc n ps qs else some false
    | _, _ => some false

def pyEqL : Nat → List Term → List Term → Option Bool
  | 0, _, _ => none
  | _ + 1, [], [] => some true
  | n + 1, a :: as, b :: bs =>
    match pyEq n a b with
    | none => none
    | some false => some false
    | some true => pyEqL n as bs
  | _ + 1, _, _ => some false

def pyMem : Nat → Term → List Term → Option Bool
  | 0, _, _ => none
  | _ + 1, _, [] => some false
  | n + 1, t, y :: ys =>
    match pyEq n t y with
    | none => none
    | some true => some true
    | some false => pyMem n t ys

def pyIncl : Nat → List Term → List Term → Option Bool
  | 0, _, _ => none
  | _ + 1, [], _ => some true
  | n + 1, x :: xs, ys =>
    match pyMem n x ys with
    | none => none
    | some false => some false
    | some true => pyIncl n xs ys

def pyDInc : Nat → List (Term × Term) → List (Term × Term) → Option Bool
  | 0, _, _ => none
  | _ + 1, [], _ => some true
  | n + 1, (k, v) :: ps, qs =>
    match pyFind n k qs with
    | none => none
    | some none => some false
    | some (some w) =>
      match pyEq n v w with
      | none => none
      | some false => some false
      | some true => pyDInc n ps qs

def pyFind : Nat → Term → List (Term × Term) → Option (Option Term)
  | 0, _, _ => none
  | _ + 1, _, [] => some none
  | n + 1, k, (k', v') :: qs =>
    match pyEq n k k' with
    | none => none
    | some true => some (some v')
    | some false => pyFind n k qs
end

/-- The union `seq = tuple, list, Iterator` from `core.py` line 117:
`_unify` is registered on `(seq, seq, dict)`, so any mix of the three
kinds dispatches to the sequence handler. -/
def isSeq : Term → Bool
  | .tup _ => true
  | .lst _ => true
  | .iter _ => true
  | _ => false

/-- Python `len()` on a sequence operand: defined for tuples and lists;
an Iterator has no `__len__`, so `len()` raises `TypeError`, modelled
by `none`. -/
def pyLen : Term → Option Nat
  | .tup ts => some ts.length
  | .lst ts => some ts.length
  | _ => none

def seqElems : Term → List Term
  | .tup ts => ts
  | .lst ts => ts
  | .iter ts => ts
  | _ => []

def termRank : Term → Nat
  | .int _ => 0
  | .str _ => 1
  | .var _ => 2
  | .tup _ => 3
  | .lst _ => 4
  | .set _ => 5
  | .dict _ => 6
  | .iter _ => 7

/-!
Modelled from the spec, section 4.2: the set handler sorts each
remainder "under a total order".  The concrete order below (shape
rank, then payload, then lexicographic on contents) is one such total
order; it only determines which remainder elements are paired by the
element-wise pass that follows.
-/

mutual
def pyCmp : Nat → Term → Term → Option Ordering
  | 0, _, _ => none
  | n + 1, t, u =>
    if termRank t < termRank u then some .lt
    else if termRank u < termRank t then some .gt
    else
      match t, u with
      | .int a, .int b => some (compare a b)
      | .str a, .str b => some (compare a b)
      | .var a, .var b => some (compare a b)
      | .tup as, .tup bs => pyCmpL n as bs
      | .lst as, .lst bs => pyCmpL n as bs
      | .set as, .set bs => pyCmpL n as bs
      | _, _ => some .eq

def pyCmpL : Nat → List Term → List Term → Option Ordering
  | 0, _, _ => none
  | _ + 1, [], [] => some .eq
  | _ + 1, [], _ :: _ => some .lt
  | _ + 1, _ :: _, [] => some .gt
  | n + 1, a :: as, b :: bs =>
    match pyCmp n a b with
    | none => none
    | some .eq => pyCmpL n as bs
    | some o => some o
end

/-- Insert into a sorted list, keeping elements ordered by `pyCmp`. -/
def insSorted (n : Nat) (t : Term) : List Term → Option (List Term)
  | [] => some [t]
  | y :: ys =>
    match pyCmp n t y with
    | none => none
    | some .gt =>
      match insSorted n t ys with
      | none => none
      | some r => some (y :: r)
    | some _ => some (t :: y :: ys)

/-- Python `sorted()` of a set remainder, as insertion sort under the
total order `pyCmp`. -/
def sortT (n : Nat) : List Term → Option (List Term)
  | [] => some []
  | t :: ts =>
    match sortT n ts with
    | none => none
    | some r => insSorted n t r

/-- Set difference under native equality: `u - (u & v) = u - v`, the
remainder after removing the intersection from `u`. -/
def pyDiff (n : Nat) : List Term → List Term → Option (List Term)
  | [], _ => some []
  | x :: xs, ys =>
    match pyMem n x ys with
    | none => none
    | some true => pyDiff n xs ys
    | some false =>
      match pyDiff n xs ys with
      | none => none
      | some r => some (x :: r)

/-- Outcome of `unify`: a substitution, the failure sentinel `False`,
or a raised exception (`TypeError` from `len()` on an Iterator). -/
inductive UR where
  | ok : Subst → UR
  | fail : UR
  | err : UR

/-!
`unify(u, v, s)` from `core.py` lines 211-227 and the `_unify`
handlers (`dunify` is the dispatch over the non-variable shapes,
lines 175-208): walk both operands, return `s` on native equality,
bind a walked unbound Variable, else dispatch: sequence-kinds handler
(length check via `len()`, then element-wise left-to-right threading),
set handler (remove the intersection, sort the remainders, unify them
as sequences), dict handler (length check, then per-key lookup and
value unification threading `s`), catch-all `False`.
-/

mutual
def unify : Nat → Term → Term → Subst → Option UR
  | 0, _, _, _ => none
  | n + 1, u, v, s =>
    match walk u s, walk v s with
    | some u', some v' =>
      match pyEq n u' v' with
      | none => none
      | some true => some (.ok s)
      | some false =>
        match u' with
        | .var x => some (.ok (assoc s x v'))
        | _ =>
          match v' with
          | .var y => some (.ok (assoc s y u'))
          | _ => dunify n u' v' s
    | _, _ => none

def dunify : Nat → Term → Term → Subst → Option UR
  | 0, _, _, _ => none
  | n + 1, u, v, s =>
    if isSeq u && isSeq v then
      match pyLen u with
      | none => some .err
      | some lu =>
        match pyLen v with
        | none => some .err
        | some lv =>
          if lu = lv then unifyL n (seqElems u) (seqElems v) s
          else some .fail
    else
      match u, v with
      | .set xs, .set ys =>
        match pyDiff n xs ys, pyDiff n ys xs with
        | some us, some vs =>
          match sortT n us, sortT n vs with
          | some as, some bs =>
            if as.length = bs.length then unifyL n as bs s else some .fail
          | _, _ => none
        | _, _ => none
      | .dict ps, .dict qs =>
        if ps.length = qs.length then unifyD n ps qs s else some .fail
      | _, _ => some .fail

def unifyL : Nat → List Term → List Term → Subst → Option UR
  | 0, _, _, _ => none
  | _ + 1, [], [], s => some (.ok s)
  | n + 1, a :: as, b :: bs, s =>
    match unify n a b s with
    | none => none
    | some (.ok s') => unifyL n as bs s'
    | some .fail => some .fail
    | some .err => some .err
  | _ + 1, _, _, _ => some .fail

def unifyD : Nat → List (Term × Term) → List (Term × Term) → Subst → Option UR
  | 0, _, _, _ => none
  | _ + 1, [], _, s => some (.ok s)
  | n + 1, (k, uv) :: ps, qs, s =>
    match pyFind n k qs with
    | none => none
    | some none => some .fail
    | some (some vv) =>
      match unify n uv vv s with
      | none => none
      | some (.ok s') => unifyD n ps qs s'
      | some .fail => some .fail
      | some .err => some .err
end

/-!
`reify(e, s)` from `core.py` lines 96-111 with the `_reify` handlers,
lines 50-75: a Variable bound in `s` is recursively reified through its
binding; an unbound Variable is returned unchanged; tuples, lists and
iterators are reified element-wise preserving the kind; dict values are
reified while keys are preserved as written (`dict((k, reify(v, s)) ...)`);
everything else — scalars, and notably sets/frozensets, for which no
`_reify` handler is registered — falls to the `(object, dict)` catch-all
and is returned unchanged.
-/

mutual
def reify : Nat → Term → Subst → Option Term
  | 0, _, _ => none
  | n + 1, t, s =>
    match t with
    | .var x =>
      match lookup s x with
      | some b => reify n b s
      | none => some (.var x)
    | .tup ts =>
      match reifyL n ts s with
      | some vs => some (.tup vs)
      | none => none
    | .lst ts =>
      match reifyL n ts s with
      | some vs => some (.lst vs)
      | none => none
    | .iter ts =>
      match reifyL n ts s with
      | some vs => some (.iter vs)
      | none => none
    | .dict ps =>
      match reifyD n ps s with
      | some qs => some (.dict qs)
      | none => none
    | t => some t

def reifyL : Nat → List Term → Subst → Option (List Term)
  | 0, _, _ => none
  | _ + 1, [], _ => some []
  | n + 1, t :: ts, s =>
    match reify n t s with
    | some v =>
      match reifyL n ts s with
      | some vs => some (v :: vs)
      | none => none
    | none => none

def reifyD : Nat → List (Term × Term) → Subst → Option (List (Term × Term))
  | 0, _, _ => none
  | _ + 1, [], _ => some []
  | n + 1, (k, v) :: ps, s =>
    match reify n v s with
    | some w =>
      match reifyD n ps s with
      | some qs => some ((k, w) :: qs)
      | none => none
    | none => none
end

/-!
Modelled from the spec, section 4.4: the groundness analyzer
(`unground_lvars` / `isground`, imported by `src/tests/test_core.py`
but absent from `src/`).  It collects the Variables reachable by
recursively walking and descending into the term that remain unbound,
tracking the Variables already visited along the current resolution
path and treating a re-encountered one as unresolved instead of
looping; a Variable transitively bound to an unbound Variable
contributes only the final unbound Variable.  The traversal descends
into sequences, sets, and both keys and values of mappings.
-/

mutual
def ungroundLvars : Nat → Term → Subst → List Nat → Option (List Nat)
  | 0, _, _, _ => none
  | n + 1, t, s, vis =>
    match t with
    | .var x =>
      if vis.contains x then some [x]
      else
        match lookup s x with
        | some b => ungroundLvars n b s (x :: vis)
        | none => some [x]
    | .tup ts => ungroundL n ts s vis
    | .lst ts => ungroundL n ts s vis
    | .set ts => ungroundL n ts s vis
    | .iter ts => ungroundL n ts s vis
    | .dict ps => ungroundD n ps s vis
    | _ => some []

def ungroundL : Nat → List Term → Subst → List Nat → Option (List Nat)
  | 0, _, _, _ => none
  | _ + 1, [], _, _ => some []
  | n + 1, t :: ts, s, vis =>
    match ungroundLvars n t s vis with
    | none => none
    | some a =>
      match ungroundL n ts s vis with
      | none => none
      | some b => some (a ++ b)

def ungroundD : Nat → List (Term × Term) → Subst → List Nat → Option (List Nat)
  | 0, _, _, _ => none
  | _ + 1, [], _, _ => some []
  | n + 1, (k, v) :: ps, s, vis =>
    match ungroundLvars n k s vis with
    | none => none
    | some a =>
      match ungroundLvars n v s vis with
      | none => none
      | some b =>
        match ungroundD n ps s vis with
        | none => none
        | some c => some (a ++ b ++ c)
end

def isground (n : Nat) (t : Term) (s : Subst) : Option Bool :=
  match ungroundLvars n t s [] with
  | some l => some l.isEmpty
  | none => none

/-- Native equality of two substitutions viewed as Python dicts keyed
by Variables: equal size and every binding of the first present in the
second with a `==` value. -/
def substLe (n : Nat) : Subst → Subst → Option Bool
  | [], _ => some true
  | (k, v) :: s1, s2 =>
    match lookup s2 k with
    | none => some false
    | some w =>
      match pyEq n v w with
      | none => none
      | some false => some false
      | some true => substLe n s1 s2

def substEq (n : Nat) (s1 s2 : Subst) : Option Bool :=
  if s1.length = s2.length then substLe n s1 s2 else some false

/-!
`noBound` checks that no variable occurring anywhere in the term
(including set elements and dict keys) is bound in `s`; it is the
hypothesis of the groundness round-trip contract for `reify`.
-/

mutual
def noBound : Nat → Subst → Term → Option Bool
  | 0, _, _ => none
  | n + 1, s, t =>
    match t with
    | .var x => some (lookup s x).isNone
    | .tup ts => noBoundL n s ts
    | .lst ts => noBoundL n s ts
    | .set ts => noBoundL n s ts
    | .iter ts => noBoundL n s ts
    | .dict ps => noBoundD n s ps
    | _ => some true

def noBoundL : Nat → Subst → List Term → Option Bool
  | 0, _, _ => none
  | _ + 1, _, [] => some true
  | n + 1, s, t :: ts =>
    match noBound n s t with
    | none => none
    | some false => some false
    | some true => noBoundL n s ts

def noBoundD : Nat → Subst → List (Term × Term) → Option Bool
  | 0, _, _ => none
  | _ + 1, _, [] => some true
  | n + 1, s, (k, v) :: ps =>
    match noBound n s k with
    | none => none
    | some false => some false
    | some true =>
      match noBound n s v with
      | none => none
      | some false => some false
      | some true => noBoundD n s ps
end

example : unify 6 (.lst [.int 1]) (.tup [.int 1]) [] = some (.ok []) := rfl
example : unify 6 (.iter [.int 1, .int 2]) (.lst [.int 1, .int 2]) [] = some .err := rfl
example : reify 6 (.set [.int 1, .int 2, .var 0]) [(0, .int 3)]
    = some (.set [.int 1, .int 2, .var 0]) := rfl
example : unify 10 (.set [.int 1, .var 0]) (.set [.int 1, .int 2]) []
    = some (.ok [(0, .int 2)]) := rfl
example : unify 12 (.set [.int 1, .var 1, .var 0]) (.set [.int 2, .int 1]) [(0, .int 2)]
    = some .fail := rfl
example : isground 6 (.tup [.int 1, .var 0]) [(0, .var 1), (1, .var 0)] = some false := rfl
example : unify 3 (.var 0) (.int 7) [] = some (.ok [(0, .int 7)]) := rfl
example : unify 8 (.tup [.int 1, .var 0]) (.tup [.int 1, .int 2]) []
    = some (.ok [(0, .int 2)]) := rfl
example : reify 12 (.tup [.int 1, .var 0, .tup [.int 3, .var 1]]) [(0, .int 2), (1, .int 4)]
    = some (.tup [.int 1, .int 2, .tup [.int 3, .int 4]]) := rfl

/-!
General lemmas.  First: a walked result that is a Variable is unbound
(the chase only stops at a Variable when its lookup fails), and fuel
monotonicity for every fuel-indexed family: once a computation returns
`some`, any larger fuel returns the same answer.
-/

theorem walkAux_var (f : Nat) : ∀ t s x, walkAux f t s = some (.var x) → lookup s x = none := by
  induction f with
  | zero =>
    intro t s x h
    cases t with
    | var y =>
      cases hl : lookup s y with
      | none =>
        simp only [walkAux, hl] at h
        injection h with h'
        injection h' with h2
        subst h2
        exact hl
      | some b => simp [walkAux, hl] at h
    | int a => simp [walkAux] at h
    | str a => simp [walkAux] at h
    | tup ts => simp [walkAux] at h
    | lst ts => simp [walkAux] at h
    | set ts => simp [walkAux] at h
    | dict ps => simp [walkAux] at h
    | iter ts => simp [walkAux] at h
  | succ f ih =>
    intro t s x h
    cases t with
    | var y =>
      cases hl : lookup s y with
      | none =>
        simp only [walkAux, hl] at h
        injection h with h'
        injection h' with h2
        subst h2
        exact hl
      | some b =>
        simp only [walkAux, hl] at h
        exact ih b s x h
    | int a => simp [walkAux] at h
    | str a => simp [walkAux] at h
    | tup ts => simp [walkAux] at h
    | lst ts => simp [walkAux] at h
    | set ts => simp [walkAux] at h
    | dict ps => simp [walkAux] at h
    | iter ts => simp [walkAux] at h

theorem walk_var {u : Term} {s : Subst} {x : Nat} (h : walk u s = some (.var x)) :
    lookup s x = none :=
  walkAux_var s.length u s x h

theorem pyEq_family_mono (n : Nat) :
    (∀ t u b, pyEq n t u = some b → pyEq (n + 1) t u = some b) ∧
    (∀ as bs b, pyEqL n as bs = some b → pyEqL (n + 1) as bs = some b) ∧
    (∀ t ys b, pyMem n t ys = some b → pyMem (n + 1) t ys = some b) ∧
    (∀ xs ys b, pyIncl n xs ys = some b → pyIncl (n + 1) xs ys = some b) ∧
    (∀ ps qs b, pyDInc n ps qs = some b → pyDInc (n + 1) ps qs = some b) ∧
    (∀ k qs r, pyFind n k qs = some r → pyFind (n + 1) k qs = some r) := by
  induction n with
  | zero =>
    refine ⟨?_, ?_, ?_, ?_, ?_, ?_⟩ <;> intro a b c h <;>
      simp [pyEq, pyEqL, pyMem, pyIncl, pyDInc, pyFind] at h
  | succ n ih =>
    obtain ⟨ihEq, ihL, ihM, ihI, ihD, ihF⟩ := ih
    refine ⟨?_, ?_, ?_, ?_, ?_, ?_⟩
    · intro t u b h
      cases t <;> cases u <;> simp only [pyEq] at h ⊢ <;> try exact h
      · exact ihL _ _ _ h
      · exact ihL _ _ _ h
      · rename_i as bs
        by_cases hl : as.length = bs.length
        · simp only [hl, if_true] at h ⊢
          cases hI : pyIncl n as bs with
          | none => rw [hI] at h; cases h
          | some c =>
            rw [hI] at h
            rw [ihI _ _ _ hI]
            cases c with
            | false => exact h
            | true => exact ihI _ _ _ h
        · simp only [hl, if_false] at h ⊢; exact h
      · rename_i ps qs
        by_cases hl : ps.length = qs.length
        · simp only [hl, if_true] at h ⊢
          exact ihD _ _ _ h
        · simp only [hl, if_false] at h ⊢; exact h
    · intro as bs b h
      cases as with
      | nil =>
        cases bs with
        | nil => exact h
        | cons b' bs => exact h
      | cons a as =>
        cases bs with
        | nil => exact h
        | cons b' bs =>
          simp only [pyEqL] at h ⊢
          cases hE : pyEq n a b' with
          | none => rw [hE] at h; cases h
          | some c =>
            rw [hE] at h
            rw [ihEq _ _ _ hE]
            cases c with
            | false => exact h
            | true => exact ihL _ _ _ h
    · intro t ys b h
      cases ys with
      | nil => exact h
      | cons y ys =>
        simp only [pyMem] at h ⊢
        cases hE : pyEq n t y with
        | none => rw [hE] at h; cases h
        | some c =>
          rw [hE] at h
          rw [ihEq _ _ _ hE]
          cases c with
          | true => exact h
          | false => exact ihM _ _ _ h
    · intro xs ys b h
      cases xs with
      | nil => exact h
      | cons x xs =>
        simp only [pyIncl] at h ⊢
        cases hM : pyMem n x ys with
        | none => rw [hM] at h; cases h
        | some c =>
          rw [hM] at h
          rw [ihM _ _ _ hM]
          cases c with
          | false => exact h
          | true => exact ihI _ _ _ h
    · intro ps qs b h
      cases ps with
      | nil => exact h
      | cons p ps =>
        obtain ⟨k, v⟩ := p
        simp only [pyDInc] at h ⊢
        cases hF : pyFind n k qs with
        | none => rw [hF] at h; cases h
        | some r =>
          rw [hF] at h
          rw [ihF _ _ _ hF]
          cases r with
          | none => exact h
          | some w =>
            dsimp only at h ⊢
            cases hE : pyEq n v w with
            | none => rw [hE] at h; cases h
            | some c =>
              rw [hE] at h
              rw [ihEq _ _ _ hE]
              cases c with
              | false => exact h
              | true => exact ihD _ _ _ h
    · intro k qs r h
      cases qs with
      | nil => exact h
      | cons q qs =>
        obtain ⟨k', v'⟩ := q
        simp only [pyFind] at h ⊢
        cases hE : pyEq n k k' with
        | none => rw [hE] at h; cases h
        | some c =>
          rw [hE] at h
          rw [ihEq _ _ _ hE]
          cases c with
          | true => exact h
          | false => exact ihF _ _ _ h

theorem pyEq_mono {n m : Nat} (hnm : n ≤ m) {t u : Term} {b : Bool}
    (h : pyEq n t u = some b) : pyEq m t u = some b := by
  induction hnm with
  | refl => exact h
  | step _ ih => exact (pyEq_family_mono _).1 _ _ _ ih

theorem pyMem_mono {n m : Nat} (hnm : n ≤ m) {t : Term} {ys : List Term} {b : Bool}
    (h : pyMem n t ys = some b) : pyMem m t ys = some b := by
  induction hnm with
  | refl => exact h
  | step _ ih => exact (pyEq_family_mono _).2.2.1 _ _ _ ih

theorem pyFind_mono {n m : Nat} (hnm : n ≤ m) {k : Term} {qs : List (Term × Term)}
    {r : Option Term} (h : pyFind n k qs = some r) : pyFind m k qs = some r := by
  induction hnm with
  | refl => exact h
  | step _ ih => exact (pyEq_family_mono _).2.2.2.2.2 _ _ _ ih

theorem pyCmp_family_mono (n : Nat) :
    (∀ t u o, pyCmp n t u = some o → pyCmp (n + 1) t u = some o) ∧
    (∀ as bs o, pyCmpL n as bs = some o → pyCmpL (n + 1) as bs = some o) := by
  induction n with
  | zero =>
    refine ⟨?_, ?_⟩ <;> intro a b c h <;> simp [pyCmp, pyCmpL] at h
  | succ n ih =>
    obtain ⟨ihC, ihL⟩ := ih
    refine ⟨?_, ?_⟩
    · intro t u o h
      simp only [pyCmp] at h ⊢
      by_cases h1 : termRank t < termRank u
      · simp only [h1, if_true] at h ⊢; exact h
      · by_cases h2 : termRank u < termRank t
        · simp only [h1, h2, if_true, if_false] at h ⊢; exact h
        · simp only [h1, h2, if_false] at h ⊢
          cases t <;> cases u <;> try exact h
          · exact ihL _ _ _ h
          · exact ihL _ _ _ h
          · exact ihL _ _ _ h
    · intro as bs o h
      cases as with
      | nil => cases bs with
        | nil => exact h
        | cons b bs => exact h
      | cons a as =>
        cases bs with
        | nil => exact h
        | cons b bs =>
          simp only [pyCmpL] at h ⊢
          cases hC : pyCmp n a b with
          | none => rw [hC] at h; cases h
          | some c =>
            rw [hC] at h
            rw [ihC _ _ _ hC]
            cases c with
            | eq => exact ihL _ _ _ h
            | lt => exact h
            | gt => exact h

theorem pyCmp_mono {n m : Nat} (hnm : n ≤ m) {t u : Term} {o : Ordering}
    (h : pyCmp n t u = some o) : pyCmp m t u = some o := by
  induction hnm with
  | refl => exact h
  | step _ ih => exact (pyCmp_family_mono _).1 _ _ _ ih

theorem insSorted_mono {n m : Nat} (hnm : n ≤ m) {t : Term} :
    ∀ {ys r}, insSorted n t ys = some r → insSorted m t ys = some r := by
  intro ys
  induction ys with
  | nil => intro r h; exact h
  | cons y ys ih =>
    intro r h
    simp only [insSorted] at h ⊢
    cases hC : pyCmp n t y with
    | none => rw [hC] at h; cases h
    | some c =>
      rw [hC] at h
      rw [pyCmp_mono hnm hC]
      cases c with
      | lt => exact h
      | eq => exact h
      | gt =>
        dsimp only at h ⊢
        cases hI : insSorted n t ys with
        | none => rw [hI] at h; cases h
        | some r' =>
          rw [hI] at h
          rw [ih hI]
          exact h

theorem sortT_mono {n m : Nat} (hnm : n ≤ m) :
    ∀ {ts r}, sortT n ts = some r → sortT m ts = some r := by
  intro ts
  induction ts with
  | nil => intro r h; exact h
  | cons t ts ih =>
    intro r h
    simp only [sortT] at h ⊢
    cases hS : sortT n ts with
    | none => rw [hS] at h; cases h
    | some r' =>
      rw [hS] at h
      rw [ih hS]
      exact insSorted_mono hnm h

theorem pyDiff_mono {n m : Nat} (hnm : n ≤ m) :
    ∀ {xs ys r}, pyDiff n xs ys = some r → pyDiff m xs ys = some r := by
  intro xs
  induction xs with
  | nil => intro ys r h; exact h
  | cons x xs ih =>
    intro ys r h
    simp only [pyDiff] at h ⊢
    cases hM : pyMem n x ys with
    | none => rw [hM] at h; cases h
    | some c =>
      rw [hM] at h
      rw [pyMem_mono hnm hM]
      cases c with
      | true => exact ih h
      | false =>
        dsimp only at h ⊢
        cases hD : pyDiff n xs ys with
        | none => rw [hD] at h; cases h
        | some r' =>
          rw [hD] at h
          rw [ih hD]
          exact h

theorem unify_family_mono (n : Nat) :
    (∀ u v s r, unify n u v s = some r → unify (n + 1) u v s = some r) ∧
    (∀ u v s r, dunify n u v s = some r → dunify (n + 1) u v s = some r) ∧
    (∀ as bs s r, unifyL n as bs s = some r → unifyL (n + 1) as bs s = some r) ∧
    (∀ ps qs s r, unifyD n ps qs s = some r → unifyD (n + 1) ps qs s = some r) := by
  induction n with
  | zero =>
    refine ⟨?_, ?_, ?_, ?_⟩ <;> intro a b c d h <;>
      simp [unify, dunify, unifyL, unifyD] at h
  | succ n ih =>
    obtain ⟨ihU, ihDu, ihL, ihD⟩ := ih
    refine ⟨?_, ?_, ?_, ?_⟩
    · intro u v s r h
      simp only [unify] at h ⊢
      cases hw1 : walk u s with
      | none => rw [hw1] at h; cases h
      | some u' =>
        rw [hw1] at h
        cases hw2 : walk v s with
        | none => rw [hw2] at h; cases h
        | some v' =>
          rw [hw2] at h
          dsimp only at h ⊢
          cases hE : pyEq n u' v' with
          | none => rw [hE] at h; cases h
          | some c =>
            rw [hE] at h
            rw [(pyEq_family_mono n).1 _ _ _ hE]
            cases c with
            | true => exact h
            | false =>
              dsimp only at h ⊢
              cases u' <;> try exact h
              all_goals (cases v' <;> first | exact h | exact ihDu _ _ _ _ h)
    · intro u v s r h
      cases u <;> cases v <;> try exact h
      case set.set xs ys =>
        simp only [dunify] at h ⊢
        cases hD1 : pyDiff n xs ys with
        | none => rw [hD1] at h; cases h
        | some us =>
          rw [hD1] at h
          rw [pyDiff_mono (Nat.le_succ n) hD1]
          cases hD2 : pyDiff n ys xs with
          | none => rw [hD2] at h; cases h
          | some vs =>
            rw [hD2] at h
            rw [pyDiff_mono (Nat.le_succ n) hD2]
            dsimp only at h ⊢
            cases hS1 : sortT n us with
            | none => rw [hS1] at h; cases h
            | some as =>
              rw [hS1] at h
              rw [sortT_mono (Nat.le_succ n) hS1]
              cases hS2 : sortT n vs with
              | none => rw [hS2] at h; cases h
              | some bs =>
                rw [hS2] at h
                rw [sortT_mono (Nat.le_succ n) hS2]
                dsimp only at h ⊢
                by_cases hl : as.length = bs.length
                · rw [if_pos hl] at h ⊢
                  exact ihL _ _ _ _ h
                · rw [if_neg hl] at h ⊢
                  exact h
      case dict.dict ps qs =>
        simp only [dunify] at h ⊢
        by_cases hl : ps.length = qs.length
        · rw [if_pos hl] at h ⊢
          exact ihD _ _ _ _ h
        · rw [if_neg hl] at h ⊢
          exact h
      all_goals (
        simp only [dunify, isSeq, pyLen, seqElems, Bool.and_self] at h ⊢
        rename_i as bs
        by_cases hl : as.length = bs.length
        · rw [if_pos hl] at h ⊢
          exact ihL _ _ _ _ h
        · rw [if_neg hl] at h ⊢
          exact h)
    · intro as bs s r h
      cases as with
      | nil => cases bs with
        | nil => exact h
        | cons b bs => exact h
      | cons a as =>
        cases bs with
        | nil => exact h
        | cons b bs =>
          simp only [unifyL] at h ⊢
          cases hU : unify n a b s with
          | none => rw [hU] at h; cases h
          | some r' =>
            rw [hU] at h
            rw [ihU _ _ _ _ hU]
            cases r' with
            | ok s' =>
              dsimp only at h ⊢
              exact ihL _ _ _ _ h
            | fail => exact h
            | err => exact h
    · intro ps qs s r h
      cases ps with
      | nil => exact h
      | cons p ps =>
        obtain ⟨k, uv⟩ := p
        simp only [unifyD] at h ⊢
        cases hF : pyFind n k qs with
        | none => rw [hF] at h; cases h
        | some fr =>
          rw [hF] at h
          rw [pyFind_mono (Nat.le_succ n) hF]
          cases fr with
          | none => exact h
          | some vv =>
            dsimp only at h ⊢
            cases hU : unify n uv vv s with
            | none => rw [hU] at h; cases h
            | some r' =>
              rw [hU] at h
              rw [ihU _ _ _ _ hU]
              cases r' with
              | ok s' =>
                dsimp only at h ⊢
                exact ihD _ _ _ _ h
              | fail => exact h
              | err => exact h

theorem unify_mono {n m : Nat} (hnm : n ≤ m) {u v : Term} {s : Subst} {r : UR}
    (h : unify n u v s = some r) : unify m u v s = some r := by
  induction hnm with
  | refl => exact h
  | step _ ih => exact (unify_family_mono _).1 _ _ _ _ ih

theorem unifyD_mono {n m : Nat} (hnm : n ≤ m) {ps qs : List (Term × Term)} {s : Subst}
    {r : UR} (h : unifyD n ps qs s = some r) : unifyD m ps qs s = some r := by
  induction hnm with
  | refl => exact h
  | step _ ih => exact (unify_family_mono _).2.2.2 _ _ _ _ ih

theorem reify_family_mono (n : Nat) :
    (∀ t s v, reify n t s = some v → reify (n + 1) t s = some v) ∧
    (∀ ts s vs, reifyL n ts s = some vs → reifyL (n + 1) ts s = some vs) ∧
    (∀ ps s qs, reifyD n ps s = some qs → reifyD (n + 1) ps s = some qs) := by
  induction n with
  | zero =>
    refine ⟨?_, ?_, ?_⟩ <;> intro a b c h <;> simp [reify, reifyL, reifyD] at h
  | succ n ih =>
    obtain ⟨ihT, ihL, ihD⟩ := ih
    refine ⟨?_, ?_, ?_⟩
    · intro t s v h
      cases t <;> try exact h
      case var x =>
        simp only [reify] at h
        cases hl : lookup s x with
        | none =>
          rw [hl] at h
          have hg : reify (n + 1 + 1) (.var x) s = some (.var x) := by
            simp [reify, hl]
          rw [hg]
          exact h
        | some b =>
          rw [hl] at h
          have hg : reify (n + 1 + 1) (.var x) s = reify (n + 1) b s := by
            simp [reify, hl]
          rw [hg]
          exact ihT _ _ _ h
      case tup ts =>
        simp only [reify] at h ⊢
        cases hL : reifyL n ts s with
        | none => rw [hL] at h; cases h
        | some vs => rw [hL] at h; rw [ihL _ _ _ hL]; exact h
      case lst ts =>
        simp only [reify] at h ⊢
        cases hL : reifyL n ts s with
        | none => rw [hL] at h; cases h
        | some vs => rw [hL] at h; rw [ihL _ _ _ hL]; exact h
      case iter ts =>
        simp only [reify] at h ⊢
        cases hL : reifyL n ts s with
        | none => rw [hL] at h; cases h
        | some vs => rw [hL] at h; rw [ihL _ _ _ hL]; exact h
      case dict ps =>
        simp only [reify] at h ⊢
        cases hD : reifyD n ps s with
        | none => rw [hD] at h; cases h
        | some qs => rw [hD] at h; rw [ihD _ _ _ hD]; exact h
    · intro ts s vs h
      cases ts with
      | nil => exact h
      | cons t ts =>
        simp only [reifyL] at h ⊢
        cases hT : reify n t s with
        | none => rw [hT] at h; cases h
        | some v =>
          rw [hT] at h
          rw [ihT _ _ _ hT]
          dsimp only at h ⊢
          cases hL : reifyL n ts s with
          | none => rw [hL] at h; cases h
          | some vs' =>
            rw [hL] at h
            rw [ihL _ _ _ hL]
            exact h
    · intro ps s qs h
      cases ps with
      | nil => exact h
      | cons p ps =>
        obtain ⟨k, v⟩ := p
        simp only [reifyD] at h ⊢
        cases hT : reify n v s with
        | none => rw [hT] at h; cases h
        | some w =>
          rw [hT] at h
          rw [ihT _ _ _ hT]
          dsimp only at h ⊢
          cases hD : reifyD n ps s with
          | none => rw [hD] at h; cases h
          | some qs' =>
            rw [hD] at h
            rw [ihD _ _ _ hD]
            exact h

theorem reify_mono {n m : Nat} (hnm : n ≤ m) {t : Term} {s : Subst} {v : Term}
    (h : reify n t s = some v) : reify m t s = some v := by
  induction hnm with
  | refl => exact h
  | step _ ih => exact (reify_family_mono _).1 _ _ _ ih

/-!
Idempotence machinery: the output of a successful `reify` run is a
fixed point of `reify` at the same fuel.  Bound variables can survive
only inside sets (returned untouched by the catch-all) and in dict
keys (never reified), and both spots are returned untouched again on a
second pass.
-/

theorem reify_idem_all (n : Nat) :
    (∀ t s v, reify n t s = some v → reify n v s = some v) ∧
    (∀ ts s vs, reifyL n ts s = some vs → reifyL n vs s = some vs) ∧
    (∀ ps s qs, reifyD n ps s = some qs → reifyD n qs s = some qs) := by
  induction n with
  | zero =>
    refine ⟨?_, ?_, ?_⟩ <;> intro a b c h <;> simp [reify, reifyL, reifyD] at h
  | succ n ih =>
    obtain ⟨ihT, ihL, ihD⟩ := ih
    refine ⟨?_, ?_, ?_⟩
    · intro t s v h
      cases t with
      | int a =>
        rw [show reify (n + 1) (.int a) s = some (.int a) from rfl] at h
        injection h with h2
        subst h2
        exact rfl
      | str a =>
        rw [show reify (n + 1) (.str a) s = some (.str a) from rfl] at h
        injection h with h2
        subst h2
        exact rfl
      | set ts =>
        rw [show reify (n + 1) (.set ts) s = some (.set ts) from rfl] at h
        injection h with h2
        subst h2
        exact rfl
      | var x =>
        simp only [reify] at h
        cases hl : lookup s x with
        | none =>
          rw [hl] at h
          injection h with h2
          subst h2
          simp [reify, hl]
        | some b =>
          rw [hl] at h
          exact (reify_family_mono n).1 _ _ _ (ihT _ _ _ h)
      | tup ts =>
        simp only [reify] at h
        cases hL : reifyL n ts s with
        | none => rw [hL] at h; cases h
        | some vs =>
          rw [hL] at h
          injection h with h2
          subst h2
          simp only [reify]
          rw [ihL _ _ _ hL]
      | lst ts =>
        simp only [reify] at h
        cases hL : reifyL n ts s with
        | none => rw [hL] at h; cases h
        | some vs =>
          rw [hL] at h
          injection h with h2
          subst h2
          simp only [reify]
          rw [ihL _ _ _ hL]
      | iter ts =>
        simp only [reify] at h
        cases hL : reifyL n ts s with
        | none => rw [hL] at h; cases h
        | some vs =>
          rw [hL] at h
          injection h with h2
          subst h2
          simp only [reify]
          rw [ihL _ _ _ hL]
      | dict ps =>
        simp only [reify] at h
        cases hD : reifyD n ps s with
        | none => rw [hD] at h; cases h
        | some qs =>
          rw [hD] at h
          injection h with h2
          subst h2
          simp only [reify]
          rw [ihD _ _ _ hD]
    · intro ts s vs h
      cases ts with
      | nil =>
        rw [show reifyL (n + 1) ([] : List Term) s = some [] from rfl] at h
        injection h with h2
        subst h2
        exact rfl
      | cons t ts =>
        simp only [reifyL] at h
        cases hT : reify n t s with
        | none => rw [hT] at h; cases h
        | some v =>
          rw [hT] at h
          dsimp only at h
          cases hL : reifyL n ts s with
          | none => rw [hL] at h; cases h
          | some vs' =>
            rw [hL] at h
            injection h with h2
            subst h2
            simp only [reifyL]
            rw [ihT _ _ _ hT]
            dsimp only
            rw [ihL _ _ _ hL]
    · intro ps s qs h
      cases ps with
      | nil =>
        rw [show reifyD (n + 1) ([] : List (Term × Term)) s = some [] from rfl] at h
        injection h with h2
        subst h2
        exact rfl
      | cons p ps =>
        obtain ⟨k, v⟩ := p
        simp only [reifyD] at h
        cases hT : reify n v s with
        | none => rw [hT] at h; cases h
        | some w =>
          rw [hT] at h
          dsimp only at h
          cases hD : reifyD n ps s with
          | none => rw [hD] at h; cases h
          | some qs' =>
            rw [hD] at h
            injection h with h2
            subst h2
            simp only [reifyD]
            rw [ihT _ _ _ hT]
            dsimp only
            rw [ihD _ _ _ hD]

/-!
Extension machinery: a successful unification only ever extends the
substitution with fresh keys (`assoc` is called on a walked — hence
unbound — Variable), so every binding of the input substitution is
still present, unchanged, in the output substitution.
-/

theorem unify_extends_all (n : Nat) :
    (∀ u v s s₂, unify n u v s = some (.ok s₂) →
      ∀ k w, lookup s k = some w → lookup s₂ k = some w) ∧
    (∀ u v s s₂, dunify n u v s = some (.ok s₂) →
      ∀ k w, lookup s k = some w → lookup s₂ k = some w) ∧
    (∀ as bs s s₂, unifyL n as bs s = some (.ok s₂) →
      ∀ k w, lookup s k = some w → lookup s₂ k = some w) ∧
    (∀ ps qs s s₂, unifyD n ps qs s = some (.ok s₂) →
      ∀ k w, lookup s k = some w → lookup s₂ k = some w) := by
  induction n with
  | zero =>
    refine ⟨?_, ?_, ?_, ?_⟩ <;> intro a b c d h <;>
      simp [unify, dunify, unifyL, unifyD] at h
  | succ n ih =>
    obtain ⟨ihU, ihDu, ihL, ihD⟩ := ih
    refine ⟨?_, ?_, ?_, ?_⟩
    · intro u v s s₂ h k w hk
      simp only [unify] at h
      cases hw1 : walk u s with
      | none => rw [hw1] at h; cases h
      | some u' =>
        rw [hw1] at h
        cases hw2 : walk v s with
        | none => rw [hw2] at h; cases h
        | some v' =>
          rw [hw2] at h
          dsimp only at h
          cases hE : pyEq n u' v' with
          | none => rw [hE] at h; cases h
          | some c =>
            rw [hE] at h
            cases c with
            | true =>
              injection h with h2
              injection h2 with h3
              subst h3
              exact hk
            | false =>
              dsimp only at h
              cases u' with
              | var x =>
                injection h with h2
                injection h2 with h3
                subst h3
                have hx : lookup s x = none := walk_var hw1
                simp only [assoc, lookup]
                have hne : x ≠ k := by
                  intro he
                  rw [he] at hx
                  rw [hx] at hk
                  cases hk
                rw [if_neg hne]
                exact hk
              | _ =>
                cases v' with
                | var y =>
                  injection h with h2
                  injection h2 with h3
                  subst h3
                  have hy : lookup s y = none := walk_var hw2
                  simp only [assoc, lookup]
                  have hne : y ≠ k := by
                    intro he
                    rw [he] at hy
                    rw [hy] at hk
                    cases hk
                  rw [if_neg hne]
                  exact hk
                | _ => exact ihDu _ _ _ _ h k w hk
    · intro u v s s₂ h k w hk
      cases u <;> cases v <;> try (cases h)
      case set.set xs ys =>
        simp only [dunify] at h
        cases hD1 : pyDiff n xs ys with
        | none => rw [hD1] at h; cases h
        | some us =>
          rw [hD1] at h
          cases hD2 : pyDiff n ys xs with
          | none => rw [hD2] at h; cases h
          | some vs =>
            rw [hD2] at h
            dsimp only at h
            cases hS1 : sortT n us with
            | none => rw [hS1] at h; cases h
            | some as =>
              rw [hS1] at h
              cases hS2 : sortT n vs with
              | none => rw [hS2] at h; cases h
              | some bs =>
                rw [hS2] at h
                dsimp only at h
                by_cases hl : as.length = bs.length
                · rw [if_pos hl] at h
                  exact ihL _ _ _ _ h k w hk
                · rw [if_neg hl] at h
                  cases h
      case dict.dict ps qs =>
        simp only [dunify] at h
        by_cases hl : ps.length = qs.length
        · rw [if_pos hl] at h
          exact ihD _ _ _ _ h k w hk
        · rw [if_neg hl] at h
          cases h
      all_goals (
        simp only [dunify, isSeq, pyLen, seqElems, Bool.and_self] at h
        rename_i as bs
        by_cases hl : as.length = bs.length
        · rw [if_pos hl] at h
          exact ihL _ _ _ _ h k w hk
        · rw [if_neg hl] at h
          cases h)
    · intro as bs s s₂ h k w hk
      cases as with
      | nil =>
        cases bs with
        | nil =>
          injection h with h2
          injection h2 with h3
          subst h3
          exact hk
        | cons b bs => cases h
      | cons a as =>
        cases bs with
        | nil => cases h
        | cons b bs =>
          simp only [unifyL] at h
          cases hU : unify n a b s with
          | none => rw [hU] at h; cases h
          | some r' =>
            rw [hU] at h
            cases r' with
            | ok s₁ =>
              dsimp only at h
              exact ihL _ _ _ _ h k w (ihU _ _ _ _ hU k w hk)
            | fail => cases h
            | err => cases h
    · intro ps qs s s₂ h k w hk
      cases ps with
      | nil =>
        injection h with h2
        injection h2 with h3
        subst h3
        exact hk
      | cons p ps =>
        obtain ⟨kk, uv⟩ := p
        simp only [unifyD] at h
        cases hF : pyFind n kk qs with
        | none => rw [hF] at h; cases h
        | some fr =>
          rw [hF] at h
          cases fr with
          | none => cases h
          | some vv =>
            dsimp only at h
            cases hU : unify n uv vv s with
            | none => rw [hU] at h; cases h
            | some r' =>
              rw [hU] at h
              cases r' with
              | ok s₁ =>
                dsimp only at h
                exact ihD _ _ _ _ h k w (ihU _ _ _ _ hU k w hk)
              | fail => cases h
              | err => cases h

/-!
Groundness round trip: when no variable occurring in the term is bound
in `s`, a terminating `reify` run returns the term itself.
-/

theorem reify_noBound_all (n : Nat) :
    (∀ m t s v, noBound m s t = some true → reify n t s = some v → v = t) ∧
    (∀ m ts s vs, noBoundL m s ts = some true → reifyL n ts s = some vs → vs = ts) ∧
    (∀ m ps s qs, noBoundD m s ps = some true → reifyD n ps s = some qs → qs = ps) := by
  induction n with
  | zero =>
    refine ⟨?_, ?_, ?_⟩ <;> intro m a b c _ h <;> simp [reify, reifyL, reifyD] at h
  | succ n ih =>
    obtain ⟨ihT, ihL, ihD⟩ := ih
    refine ⟨?_, ?_, ?_⟩
    · intro m t s v hnb h
      cases m with
      | zero => simp [noBound] at hnb
      | succ m =>
        cases t with
        | int a => injection h with h2; exact h2.symm
        | str a => injection h with h2; exact h2.symm
        | set ts => injection h with h2; exact h2.symm
        | var x =>
          simp only [noBound] at hnb
          injection hnb with hnb2
          have hl : lookup s x = none := by
            cases hlx : lookup s x with
            | none => exact rfl
            | some b => rw [hlx] at hnb2; cases hnb2
          simp only [reify, hl] at h
          injection h with h2
          exact h2.symm
        | tup ts =>
          simp only [noBound] at hnb
          simp only [reify] at h
          cases hL : reifyL n ts s with
          | none => rw [hL] at h; cases h
          | some vs =>
            rw [hL] at h
            injection h with h2
            rw [← h2, ihL _ _ _ _ hnb hL]
        | lst ts =>
          simp only [noBound] at hnb
          simp only [reify] at h
          cases hL : reifyL n ts s with
          | none => rw [hL] at h; cases h
          | some vs =>
            rw [hL] at h
            injection h with h2
            rw [← h2, ihL _ _ _ _ hnb hL]
        | iter ts =>
          simp only [noBound] at hnb
          simp only [reify] at h
          cases hL : reifyL n ts s with
          | none => rw [hL] at h; cases h
          | some vs =>
            rw [hL] at h
            injection h with h2
            rw [← h2, ihL _ _ _ _ hnb hL]
        | dict ps =>
          simp only [noBound] at hnb
          simp only [reify] at h
          cases hD : reifyD n ps s with
          | none => rw [hD] at h; cases h
          | some qs =>
            rw [hD] at h
            injection h with h2
            rw [← h2, ihD _ _ _ _ hnb hD]
    · intro m ts s vs hnb h
      cases m with
      | zero => simp [noBoundL] at hnb
      | succ m =>
        cases ts with
        | nil => injection h with h2; exact h2.symm
        | cons t ts =>
          simp only [noBoundL] at hnb
          cases hb : noBound m s t with
          | none => rw [hb] at hnb; cases hnb
          | some c =>
            rw [hb] at hnb
            cases c with
            | false => cases hnb
            | true =>
              dsimp only at hnb
              simp only [reifyL] at h
              cases hT : reify n t s with
              | none => rw [hT] at h; cases h
              | some v =>
                rw [hT] at h
                dsimp only at h
                cases hL : reifyL n ts s with
                | none => rw [hL] at h; cases h
                | some vs' =>
                  rw [hL] at h
                  injection h with h2
                  rw [← h2, ihT _ _ _ _ hb hT, ihL _ _ _ _ hnb hL]
    · intro m ps s qs hnb h
      cases m with
      | zero => simp [noBoundD] at hnb
      | succ m =>
        cases ps with
        | nil => injection h with h2; exact h2.symm
        | cons p ps =>
          obtain ⟨k, v⟩ := p
          simp only [noBoundD] at hnb
          cases hbk : noBound m s k with
          | none => rw [hbk] at hnb; cases hnb
          | some ck =>
            rw [hbk] at hnb
            cases ck with
            | false => cases hnb
            | true =>
              dsimp only at hnb
              cases hbv : noBound m s v with
              | none => rw [hbv] at hnb; cases hnb
              | some cv =>
                rw [hbv] at hnb
                cases cv with
                | false => cases hnb
                | true =>
                  dsimp only at hnb
                  simp only [reifyD] at h
                  cases hT : reify n v s with
                  | none => rw [hT] at h; cases h
                  | some w =>
                    rw [hT] at h
                    dsimp only at h
                    cases hD : reifyD n ps s with
                    | none => rw [hD] at h; cases h
                    | some qs' =>
                      rw [hD] at h
                      injection h with h2
                      rw [← h2, ihT _ _ _ _ hbv hT, ihD _ _ _ _ hnb hD]

/-!
Key-iteration machinery for the Mapping × Mapping handler.  When every
per-key value unification leaves the substitution unchanged (returns
`s` itself, or the failure sentinel), the handler loop degenerates to
a conjunction over the set of keys, so its outcome cannot depend on
the iteration order.  The per-pair hypothesis is stated at a single
fuel `m₀` and lifted by monotonicity to the varying fuels the loop
actually uses.
-/

theorem unifyD_stable (m₀ : Nat) (qs : List (Term × Term)) (s : Subst) :
    ∀ (ps : List (Term × Term)) (n : Nat), m₀ + ps.length + 1 ≤ n →
    (∀ p ∈ ps, ∃ vv, pyFind m₀ p.1 qs = some (some vv) ∧
        (unify m₀ p.2 vv s = some (.ok s) ∨ unify m₀ p.2 vv s = some .fail)) →
    ((∀ p ∈ ps, ∃ vv, pyFind m₀ p.1 qs = some (some vv) ∧
        unify m₀ p.2 vv s = some (.ok s)) →
      unifyD n ps qs s = some (.ok s)) ∧
    ((¬ ∀ p ∈ ps, ∃ vv, pyFind m₀ p.1 qs = some (some vv) ∧
        unify m₀ p.2 vv s = some (.ok s)) →
      unifyD n ps qs s = some .fail) := by
  intro ps
  induction ps with
  | nil =>
    intro n hn _
    obtain ⟨n', rfl⟩ : ∃ n', n = n' + 1 := by
      cases n with
      | zero => omega
      | succ n' => exact ⟨n', rfl⟩
    constructor
    · intro _
      exact rfl
    · intro hno
      exact absurd (fun p hp => absurd hp (List.not_mem_nil p)) hno
  | cons p ps ih =>
    intro n hn H
    obtain ⟨k, uv⟩ := p
    obtain ⟨n', rfl⟩ : ∃ n', n = n' + 1 := by
      cases n with
      | zero => omega
      | succ n' => exact ⟨n', rfl⟩
    obtain ⟨vv, hF, hU⟩ := H (k, uv) (List.mem_cons_self _ _)
    have hm : m₀ ≤ n' := by
      simp only [List.length_cons] at hn
      omega
    have hF' : pyFind n' k qs = some (some vv) := pyFind_mono hm hF
    have hn' : m₀ + ps.length + 1 ≤ n' := by
      simp only [List.length_cons] at hn
      omega
    have Htail : ∀ q ∈ ps, ∃ vv, pyFind m₀ q.1 qs = some (some vv) ∧
        (unify m₀ q.2 vv s = some (.ok s) ∨ unify m₀ q.2 vv s = some .fail) :=
      fun q hq => H q (List.mem_cons_of_mem _ hq)
    obtain ⟨ih1, ih2⟩ := ih n' hn' Htail
    cases hU with
    | inl hok =>
      have hok' : unify n' uv vv s = some (.ok s) := unify_mono hm hok
      have hstep : unifyD (n' + 1) ((k, uv) :: ps) qs s = unifyD n' ps qs s := by
        simp only [unifyD, hF', hok']
      constructor
      · intro hall
        rw [hstep]
        exact ih1 (fun q hq => hall q (List.mem_cons_of_mem _ hq))
      · intro hno
        rw [hstep]
        refine ih2 (fun hall => hno ?_)
        intro q hq
        rcases List.mem_cons.mp hq with hq1 | hq2
        · subst hq1
          exact ⟨vv, hF, hok⟩
        · exact hall q hq2
    | inr hfail =>
      have hfail' : unify n' uv vv s = some .fail := unify_mono hm hfail
      have hstep : unifyD (n' + 1) ((k, uv) :: ps) qs s = some .fail := by
        simp only [unifyD, hF', hfail']
      constructor
      · intro hall
        obtain ⟨vv2, hF2, hU2⟩ := hall (k, uv) (List.mem_cons_self _ _)
        rw [hF] at hF2
        injection hF2 with hF3
        injection hF3 with hF4
        subst hF4
        rw [hfail] at hU2
        cases hU2
      · intro _
        exact hstep

/-!
Claim theorems.
-/

/-- C1: the claim says unifying a list-like with a tuple-like sequence
of the same contents is a mismatched concrete sequence kind and
returns FAILURE (and `test_iter` asserts `unify([1], (1,)) is False`).
The code contradicts this: `seq = tuple, list, Iterator` is a union
type for both operands of the sequence handler, so
`unify([1], (1,), {})` runs the element-wise pass and returns the
empty substitution even though `[1] == (1,)` is false under native
equality. -/
theorem unify_mixed_seq_kinds_succeeds :
    unify 6 (.lst [.int 1]) (.tup [.int 1]) [] = some (.ok []) ∧
    pyEq 6 (.lst [.int 1]) (.tup [.int 1]) = some false :=
  ⟨rfl, rfl⟩

/-- C2: the claim (and `test_reify_Set`) says `reify` rebuilds a
set-like container with each element reified, e.g.
`reify({1, 2, x}, {x: 3}) == {1, 2, 3}`.  The code contradicts this:
no `_reify` handler is registered for `set`/`frozenset`, so the
`(object, dict)` catch-all returns the set unchanged, still containing
the bound variable, and the result is not `==` to `{1, 2, 3}`. -/
theorem reify_set_unchanged :
    reify 6 (.set [.int 1, .int 2, .var 0]) [(0, .int 3)]
      = some (.set [.int 1, .int 2, .var 0]) ∧
    pyEq 8 (.set [.int 1, .int 2, .var 0]) (.set [.int 1, .int 2, .int 3]) = some false :=
  ⟨rfl, rfl⟩

/-- C3 counterexample: two iteration orders over the same key set of
`u = {1: x, 2: y}` against `v = {1: y, 2: 1}` both succeed but return
different substitutions (`{x: y, y: 1}` vs `{x: 1, y: 1}`, not `==` as
dicts), because the substitution is threaded across keys: the claim
that any two iteration orders yield the same returned substitution or
both FAILURE is false on the code.  The last conjunct records that the
two orders are the same mapping under native equality. -/
theorem unify_dict_key_order_dependent :
    List.Perm [((Term.int 1), Term.var 0), ((Term.int 2), Term.var 1)]
      [((Term.int 2), Term.var 1), ((Term.int 1), Term.var 0)] ∧
    unify 10 (.dict [(.int 1, .var 0), (.int 2, .var 1)])
      (.dict [(.int 1, .var 1), (.int 2, .int 1)]) []
      = some (.ok [(1, .int 1), (0, .var 1)]) ∧
    unify 10 (.dict [(.int 2, .var 1), (.int 1, .var 0)])
      (.dict [(.int 1, .var 1), (.int 2, .int 1)]) []
      = some (.ok [(0, .int 1), (1, .int 1)]) ∧
    substEq 10 [(1, .int 1), (0, .var 1)] [(0, .int 1), (1, .int 1)] = some false ∧
    pyEq 10 (.dict [(.int 1, .var 0), (.int 2, .var 1)])
      (.dict [(.int 2, .var 1), (.int 1, .var 0)]) = some true :=
  ⟨List.Perm.swap _ _ _, rfl, rfl, rfl, rfl⟩

/-- C3 amended: the result of the Mapping × Mapping handler does not
depend on the order in which the keys of `u` are iterated provided no
per-key value unification extends the substitution (each one returns
`s` unchanged or FAILURE) — in particular for ground values; when
per-key unifications bind variables, different orders may return
different substitutions.  The per-pair hypothesis is stated at fuel
`m₀` and the loop is run with any fuel `n` large enough. -/
theorem unify_dict_key_order_invariant_when_no_extension :
    ∀ m₀ n (ps ps' qs : List (Term × Term)) (s : Subst),
      List.Perm ps ps' →
      m₀ + ps.length + 1 ≤ n →
      (∀ p ∈ ps, ∃ vv, pyFind m₀ p.1 qs = some (some vv) ∧
        (unify m₀ p.2 vv s = some (.ok s) ∨ unify m₀ p.2 vv s = some .fail)) →
      unifyD n ps qs s = unifyD n ps' qs s := by
  intro m₀ n ps ps' qs s hperm hn H
  have hlen : ps'.length = ps.length := hperm.length_eq.symm
  have H' : ∀ p ∈ ps', ∃ vv, pyFind m₀ p.1 qs = some (some vv) ∧
      (unify m₀ p.2 vv s = some (.ok s) ∨ unify m₀ p.2 vv s = some .fail) :=
    fun p hp => H p (hperm.mem_iff.mpr hp)
  obtain ⟨s1ok, s1no⟩ := unifyD_stable m₀ qs s ps n hn H
  obtain ⟨s2ok, s2no⟩ := unifyD_stable m₀ qs s ps' n (by rw [hlen]; exact hn) H'
  by_cases hall : ∀ p ∈ ps, ∃ vv, pyFind m₀ p.1 qs = some (some vv) ∧
      unify m₀ p.2 vv s = some (.ok s)
  · rw [s1ok hall, s2ok (fun p hp => hall p (hperm.mem_iff.mpr hp))]
  · rw [s1no hall, s2no (fun hall' => hall (fun p hp => hall' p (hperm.mem_iff.mp hp)))]

theorem unify_dict_key_order_invariant_when_no_extension_witness :
    unifyD 9 [(Term.int 1, Term.int 2), (Term.int 3, Term.int 4)]
      [(Term.int 3, Term.int 4), (Term.int 1, Term.int 2)] []
      = unifyD 9 [(Term.int 3, Term.int 4), (Term.int 1, Term.int 2)]
      [(Term.int 3, Term.int 4), (Term.int 1, Term.int 2)] [] := by
  refine unify_dict_key_order_invariant_when_no_extension 6 9 _ _ _ _
    (List.Perm.swap _ _ _) (by decide) ?_
  intro p hp
  rcases List.mem_cons.mp hp with h1 | h2
  · subst h1
    exact ⟨.int 2, rfl, Or.inl rfl⟩
  · rcases List.mem_cons.mp h2 with h3 | h4
    · subst h3
      exact ⟨.int 4, rfl, Or.inl rfl⟩
    · cases h4

/-- C4: `unify` walks both operands; native equality of the walked
values returns `s` unchanged; otherwise a walked unbound Variable on
the left is bound to the walked right value, else a walked unbound
Variable on the right is bound to the walked left value; when both
walked sides are unbound Variables the first is bound to the second.
The closed conjuncts check `unify(x, v, {}) == {x: v}`,
`unify(v, x, {}) == {x: v}`, and the both-variables direction. -/
theorem unify_walk_eq_var_steps :
    (∀ n u v s u' v', walk u s = some u' → walk v s = some v' →
      ((pyEq n u' v' = some true → unify (n + 1) u v s = some (.ok s)) ∧
       (∀ x, pyEq n u' v' = some false → u' = .var x →
         unify (n + 1) u v s = some (.ok (assoc s x v'))) ∧
       (∀ y, pyEq n u' v' = some false → (∀ x, u' ≠ .var x) → v' = .var y →
         unify (n + 1) u v s = some (.ok (assoc s y u'))))) ∧
    unify 3 (.var 0) (.int 7) [] = some (.ok [(0, .int 7)]) ∧
    unify 3 (.int 7) (.var 0) [] = some (.ok [(0, .int 7)]) ∧
    unify 3 (.var 0) (.var 1) [] = some (.ok [(0, .var 1)]) := by
  refine ⟨?_, rfl, rfl, rfl⟩
  intro n u v s u' v' hw1 hw2
  refine ⟨?_, ?_, ?_⟩
  · intro hE
    simp only [unify, hw1, hw2]
    rw [hE]
  · intro x hE hu
    subst hu
    simp only [unify, hw1, hw2]
    rw [hE]
  · intro y hE hnv hv
    subst hv
    simp only [unify, hw1, hw2]
    rw [hE]

theorem unify_walk_eq_var_steps_witness :
    unify 4 (.var 0) (.int 3) [(0, .var 1)] = some (.ok [(1, .int 3), (0, .var 1)]) :=
  (unify_walk_eq_var_steps.1 3 (.var 0) (.int 3) [(0, .var 1)] (.var 1) (.int 3)
    rfl rfl).2.1 1 rfl rfl

/-- C5: for two set-like operands `unify` removes the native-equality
intersection from both sides (`u - (u & v)` is the elements of `u` not
in `v`), sorts the two remainders under the total order, and unifies
the sorted remainders as sequences; and the spec examples
`unify({1, x}, {1, 2}, {}) == {x: 2}` and
`unify({1, y, x}, {2, 1}, {x: 2}) == FAILURE` hold. -/
theorem unify_set_handler_spec :
    (∀ n xs ys s, pyEq (n + 1) (.set xs) (.set ys) = some false →
      unify (n + 2) (.set xs) (.set ys) s =
        match pyDiff n xs ys, pyDiff n ys xs with
        | some us, some vs =>
          match sortT n us, sortT n vs with
          | some as, some bs =>
            if as.length = bs.length then unifyL n as bs s else some .fail
          | _, _ => none
        | _, _ => none) ∧
    unify 10 (.set [.int 1, .var 0]) (.set [.int 1, .int 2]) []
      = some (.ok [(0, .int 2)]) ∧
    unify 12 (.set [.int 1, .var 1, .var 0]) (.set [.int 2, .int 1]) [(0, .int 2)]
      = some .fail := by
  refine ⟨?_, rfl, rfl⟩
  intro n xs ys s hE
  have h1 : walk (Term.set xs) s = some (.set xs) := by simp [walk, walkAux]
  have h2 : walk (Term.set ys) s = some (.set ys) := by simp [walk, walkAux]
  simp only [unify, h1, h2]
  rw [hE]
  exact rfl

theorem unify_set_handler_spec_witness :
    pyEq 9 (.set [.int 1, .var 0]) (.set [.int 1, .int 2]) = some false ∧
    unify 10 (.set [.int 1, .var 0]) (.set [.int 1, .int 2]) []
      = some (.ok [(0, .int 2)]) := by
  constructor
  · exact rfl
  · rw [unify_set_handler_spec.1 8 [.int 1, .var 0] [.int 1, .int 2] [] rfl]
    exact rfl

/-- C6: reification is idempotent: whenever `reify(t, s)` terminates
with result `v`, reifying `v` again under the same substitution (and
the same fuel) returns `v` itself. -/
theorem reify_idempotent : ∀ n t s v, reify n t s = some v → reify n v s = some v :=
  fun n => (reify_idem_all n).1

theorem reify_idempotent_witness :
    reify 6 (.tup [.int 1, .var 0]) [(0, .int 2)] = some (.tup [.int 1, .int 2]) ∧
    reify 6 (.tup [.int 1, .int 2]) [(0, .int 2)] = some (.tup [.int 1, .int 2]) :=
  ⟨rfl, reify_idempotent 6 (.tup [.int 1, .var 0]) [(0, .int 2)]
    (.tup [.int 1, .int 2]) rfl⟩

/-- C7: when the term contains no variable bound in `s` — in
particular when it is ground — a terminating `reify(t, s)` run returns
a value equal to `t`. -/
theorem reify_no_bound_vars_id :
    ∀ n m t s v, noBound m s t = some true → reify n t s = some v → v = t :=
  fun n m t s v hnb h => (reify_noBound_all n).1 m t s v hnb h

theorem reify_no_bound_vars_id_witness :
    noBound 6 [(0, .int 2)] (.tup [.int 1, .var 5]) = some true ∧
    reify 6 (.tup [.int 1, .var 5]) [(0, .int 2)] = some (.tup [.int 1, .var 5]) ∧
    (Term.tup [.int 1, .var 5]) = Term.tup [.int 1, .var 5] :=
  ⟨rfl, rfl, reify_no_bound_vars_id 6 6 (.tup [.int 1, .var 5]) [(0, .int 2)]
    (.tup [.int 1, .var 5]) rfl rfl⟩

/-- C8: the functional content of the no-mutation contract: a
successful `unify` returns a substitution in which every binding of
the input substitution is still present unchanged — extensions are
returned as new mappings built by `assoc`, never by updating an
existing key (the bound variable is always fresh, being the result of
`walk`). -/
theorem unify_preserves_input_bindings :
    ∀ n u v s s₂, unify n u v s = some (.ok s₂) →
      ∀ k w, lookup s k = some w → lookup s₂ k = some w :=
  fun n => (unify_extends_all n).1

theorem unify_preserves_input_bindings_witness :
    unify 8 (.tup [.int 1, .var 0]) (.tup [.int 1, .int 2]) [(5, .int 9)]
      = some (.ok [(0, .int 2), (5, .int 9)]) ∧
    lookup [(0, .int 2), (5, .int 9)] 5 = some (.int 9) :=
  ⟨rfl, unify_preserves_input_bindings 8 (.tup [.int 1, .var 0])
    (.tup [.int 1, .int 2]) [(5, .int 9)] [(0, .int 2), (5, .int 9)] rfl 5 (.int 9) rfl⟩

/-- C9: the groundness analyzer is cycle-safe: under the mutual cycle
`{x: y, y: x}` the traversal of `(1, x)` terminates (the model returns
an answer at a small finite fuel) and reports not ground; the
re-encountered Variable on the resolution path is reported as an
unbound variable instead of being chased forever. -/
theorem isground_cycle_safe :
    isground 6 (.tup [.int 1, .var 0]) [(0, .var 1), (1, .var 0)] = some false ∧
    ungroundLvars 6 (.tup [.int 1, .var 0]) [(0, .var 1), (1, .var 0)] [] = some [0] :=
  ⟨rfl, rfl⟩

/-- C10: an Iterator operand paired with a tuple, a list, or another
Iterator dispatches to the sequence handler (`seq` is the union
`tuple, list, Iterator`), whose `len()` call on the Iterator raises
`TypeError` instead of returning a Substitution or the FAILURE
sentinel. -/
theorem unify_iterator_raises :
    unify 5 (.iter [.int 1, .int 2]) (.lst [.int 1, .int 2]) [] = some .err ∧
    unify 5 (.iter [.int 1]) (.tup [.int 1]) [] = some .err ∧
    unify 5 (.tup [.int 1]) (.iter [.int 1]) [] = some .err ∧
    unify 5 (.iter [.int 1]) (.iter [.int 1]) [] = some .err :=
  ⟨rfl, rfl, rfl, rfl⟩
